import Mathlib

/-!
Verification of the wibot Telegram bot (src/main.rs): a shallow embedding of
its markdown escaping/tokenizing pipeline, list reflow, task scheduler,
task-store insertion, connection retry loop and supervisor loop, together
with theorems settling the specification claims.

Strings are modelled as `List Char` (Rust `&str` iterated with `chars()`).
-/

namespace Wibot

/-- The restricted reserved-character set of `escape_non_formatting_chars`
(src/main.rs lines 117-131): every reserved character except the emphasis
delimiters `*`, `_` and backtick. -/
def restricted_special_chars : List Char :=
  ['[', ']', '(', ')', '~', '>', '#', '+', '-', '=', '|',
   '\x7b', '\x7d', '.', '!', '\x27', '\x22', '?', '$', '&', ',', ':', ';', '\\']

/-- The full reserved-character set of `escape_markdown_v2`
(src/main.rs lines 133-147), including the emphasis delimiters. -/
def full_special_chars : List Char :=
  ['_', '*', '[', ']', '(', ')', '~', '\x60', '>', '#', '+', '-', '=', '|',
   '\x7b', '\x7d', '.', '!', '\x27', '\x22', '?', '$', '&', ',', ':', ';', '\\']

/-- Model of `escape_non_formatting_chars` (src/main.rs lines 117-131): prepend a
backslash to every character of the restricted reserved set; all other
characters pass through unchanged. -/
def escape_non_formatting_chars : List Char → List Char
  | [] => []
  | c :: rest =>
    (if c ∈ restricted_special_chars then ['\\', c] else [c]) ++
      escape_non_formatting_chars rest

/-- Model of `escape_markdown_v2` (src/main.rs lines 133-147): prepend a backslash to
every character of the full reserved set. -/
def escape_markdown_v2 : List Char → List Char
  | [] => []
  | c :: rest =>
    (if c ∈ full_special_chars then ['\\', c] else [c]) ++
      escape_markdown_v2 rest

/-- The single-slot formatting state of `process_markdown_formatting`
(src/main.rs line 361): which emphasis kind, if any, is currently open. -/
inductive Fmt
  | bold
  | italic
  | code
deriving DecidableEq

/-- The three emphasis delimiter characters recognised by the tokenizer
(src/main.rs line 366): `*`, `_` and backtick. -/
def isFormatChar (c : Char) : Bool :=
  c = '*' || c = '_' || c = '\x60'

/-- The `format_type` assigned to a delimiter character
(src/main.rs lines 367-372).  Only ever applied to delimiter characters;
the catch-all sends non-delimiters to `code` where Rust has `unreachable!`. -/
def format_type_of (c : Char) : Fmt :=
  if c = '*' then Fmt.bold else if c = '_' then Fmt.italic else Fmt.code

/-- The decision taken at the start of a delimiter run
(src/main.rs lines 388-412), as a function of the currently open format and
the run's character: the emission for each character of the run, the new
open-format state, and whether each run character is emitted escaped. -/
def run_decision (inf : Option Fmt) (c : Char) : List Char × Option Fmt × Bool :=
  match inf with
  | none => ([c], some (format_type_of c), false)
  | some f =>
    if f = format_type_of c then ([c], none, false)
    else (['\\', c], some f, true)

/-- The scanning loop of `process_markdown_formatting` (src/main.rs
lines 358-426).  State: the open format `inf`, the pending plain-text buffer
`buf`, and `run = some (rc, esc)` while inside a maximal run of identical
delimiter characters `rc` whose per-character decision (escape flag `esc`)
was made at the run's start.  The Rust code counts a whole run up front and
then emits one decision per run character; emitting the same per-character
decision for each further identical character is the same output and state. -/
def pmf_go : Option Fmt → List Char → Option (Char × Bool) → List Char → List Char
  | _, buf, _, [] => escape_non_formatting_chars buf
  | inf, buf, run, c :: rest =>
    if isFormatChar c then
      match run with
      | some (rc, esc) =>
        if c = rc then
          (if esc then ['\\', c] else [c]) ++ pmf_go inf [] (some (rc, esc)) rest
        else
          escape_non_formatting_chars buf ++ (run_decision inf c).1 ++
            pmf_go (run_decision inf c).2.1 [] (some (c, (run_decision inf c).2.2)) rest
      | none =>
        escape_non_formatting_chars buf ++ (run_decision inf c).1 ++
          pmf_go (run_decision inf c).2.1 [] (some (c, (run_decision inf c).2.2)) rest
    else
      pmf_go inf (buf ++ [c]) none rest

/-- Model of `process_markdown_formatting` (src/main.rs lines 358-426): start with no
open format, an empty buffer, and no pending delimiter run. -/
def process_markdown_formatting (text : List Char) : List Char :=
  pmf_go none [] none text

/-- Number of unescaped occurrences of a character satisfying `p` in a
string, scanning left to right: a backslash toggles the escaped flag for the
next character (so the second backslash of an escaped backslash does not
escape what follows), and an occurrence counts only when the flag is off. -/
def countUnescapedP (p : Char → Bool) : Bool → List Char → Nat
  | _, [] => 0
  | esc, c :: rest =>
    if c = '\\' then countUnescapedP p (!esc) rest
    else (if p c && !esc then 1 else 0) + countUnescapedP p false rest

/-- Remove the escape backslashes again: a backslash is dropped and the
character it escapes kept; other characters are kept. -/
def removeEscapes : List Char → List Char
  | [] => []
  | c :: rest =>
    if c = '\\' then
      match rest with
      | [] => []
      | c2 :: rest2 => c2 :: removeEscapes rest2
    else c :: removeEscapes rest

/-- Prepend a character to the first piece of a split (helper for the
splitters below). -/
def consHead (c : Char) : List (List Char) → List (List Char)
  | [] => [[c]]
  | p :: ps => (c :: p) :: ps

/-- Rust `content.split("\n\n")` (src/main.rs line 328): split at each
non-overlapping, leftmost occurrence of two consecutive newlines. -/
def splitNN : List Char → List (List Char)
  | [] => [[]]
  | [c] => [[c]]
  | c :: c2 :: rest =>
    if c = '\n' ∧ c2 = '\n' then [] :: splitNN rest
    else consHead c (splitNN (c2 :: rest))

/-- Split at every newline (all pieces kept, including a trailing empty
piece). -/
def splitNL : List Char → List (List Char)
  | [] => [[]]
  | c :: rest =>
    if c = '\n' then [] :: splitNL rest
    else consHead c (splitNL rest)

/-- Drop one trailing carriage return, as Rust `lines()` does for a line
that was terminated by a newline. -/
def stripTrailingCR (l : List Char) : List Char :=
  if l.getLast? = some '\r' then l.dropLast else l

/-- Rust `str::lines` (src/main.rs lines 332, 337): split at newlines; every
piece that was terminated by a newline loses a trailing carriage return; a
final empty piece produced by a terminal newline is dropped; the final
unterminated piece (if nonempty) is kept as-is. -/
def rustLines (l : List Char) : List (List Char) :=
  let parts := splitNL l
  let init := parts.dropLast.map stripTrailingCR
  match parts.getLast? with
  | none => init
  | some lastP => if lastP = [] then init else init ++ [lastP]

/-- Rust `str::trim` (restricted to the ASCII whitespace relevant here):
drop leading and trailing whitespace. -/
def rustTrim (l : List Char) : List Char :=
  ((l.dropWhile Char.isWhitespace).reverse.dropWhile Char.isWhitespace).reverse

/-- The list-line test of `format_response_content` (src/main.rs lines 333
and 338): the trimmed line starts with a dash or an asterisk. -/
def isListLine (line : List Char) : Bool :=
  (rustTrim line).head? = some '-' || (rustTrim line).head? = some '*'

/-- The list-item body extraction (src/main.rs lines 339-342): trim, strip
all consecutive leading dashes and asterisks, trim again. -/
def list_item_body (line : List Char) : List Char :=
  rustTrim ((rustTrim line).dropWhile (fun c => c = '-' || c = '*'))

/-- Per-line treatment inside a list paragraph (src/main.rs lines 338-346):
a marker line gets the bullet glyph and its body tokenized; any other line
is tokenized unprefixed. -/
def format_line (line : List Char) : List Char :=
  if isListLine line then
    '•' :: ' ' :: process_markdown_formatting (list_item_body line)
  else process_markdown_formatting line

/-- Per-paragraph treatment (src/main.rs lines 329-352): a paragraph with
some list line is reformatted line by line and rejoined with newlines;
otherwise the whole paragraph is tokenized as one unit. -/
def format_paragraph (p : List Char) : List Char :=
  if (rustLines p).any isListLine then
    List.intercalate ['\n'] ((rustLines p).map format_line)
  else process_markdown_formatting p

/-- Model of `format_response_content` (src/main.rs lines 326-356): split into
paragraphs at blank lines, process each, rejoin with blank lines. -/
def format_response_content (content : List Char) : List Char :=
  List.intercalate ['\n', '\n'] ((splitNN content).map format_paragraph)

/-- Model of `chrono::Duration::num_minutes` on a duration of `secs` seconds:
integer division by 60 truncating toward zero, as Rust `i64` division does. -/
def num_minutes (secs : Int) : Int :=
  Int.tdiv secs 60

/-- The due test of `check_and_run_tasks` (src/main.rs line 702):
`now - last_run` in whole minutes is at least the task's interval.
Timestamps are modelled in seconds. -/
def isDue (now last_run interval : Int) : Bool :=
  decide (interval ≤ num_minutes (now - last_run))

/-- One stored task as read by the scheduler (src/main.rs lines 692-705).
`last_run` holds the result of parsing the stored timestamp text into a
timestamp (seconds): `none` models a string that fails to parse. -/
structure SchedTask where
  name : String
  question : String
  interval : Int
  last_run : Option Int
  chat_id : Int
deriving DecidableEq

/-- Outcome of the external work for one due task: the X.AI answer call
fails, message delivery fails, or both succeed (src/main.rs lines 709-724). -/
inductive ExecOutcome
  | apiFail
  | sendFail
  | ok
deriving DecidableEq

/-- One scheduler cycle, `check_and_run_tasks` (src/main.rs lines 690-734),
over the fetched task list, with the external answer call and delivery
abstracted into the oracle `exec`.  The returned list is the sequence of
`UPDATE tasks SET last_run = now` statements executed, as (name, timestamp)
pairs.  A `last_run` that fails to parse propagates out through `?`
(line 698), aborting the rest of the cycle; an answer-call or delivery
failure is logged and skips only that task (`continue`, lines 717 and 722). -/
def check_and_run_tasks (now : Int) (exec : SchedTask → ExecOutcome) :
    List SchedTask → Except Unit (List (String × Int))
  | [] => Except.ok []
  | t :: rest =>
    match t.last_run with
    | none => Except.error ()
    | some lr =>
      if isDue now lr t.interval then
        match exec t with
        | ExecOutcome.apiFail => check_and_run_tasks now exec rest
        | ExecOutcome.sendFail => check_and_run_tasks now exec rest
        | ExecOutcome.ok =>
          match check_and_run_tasks now exec rest with
          | Except.error e => Except.error e
          | Except.ok us => Except.ok ((t.name, now) :: us)
      else check_and_run_tasks now exec rest

/-- The update a single task contributes in a cycle: its `last_run` is set
to the poll time `now` exactly when its timestamp parses, it is due, and
its answer call and delivery both succeed. -/
def sched_update (now : Int) (exec : SchedTask → ExecOutcome) (t : SchedTask) :
    Option (String × Int) :=
  match t.last_run with
  | none => none
  | some lr =>
    if isDue now lr t.interval = true ∧ exec t = ExecOutcome.ok then some (t.name, now)
    else none

/-- One row of the `tasks` table (src/main.rs lines 169-182): `name` is the
PRIMARY KEY. -/
structure TaskRow where
  name : String
  description : String
  interval : Int
  last_run : String
  chat_id : Int
deriving DecidableEq

/-- Model of `create_task` (src/main.rs lines 505-524): INSERT into `tasks`.  Because
`name` is the table's PRIMARY KEY (line 172), the insert fails with a unique
violation exactly when any row - in any chat - already has this name;
otherwise the row is appended with `last_run` set to the current time. -/
def create_task (table : List TaskRow) (name description : String)
    (interval chat_id : Int) (now : String) : Except Unit (List TaskRow) :=
  if ∃ r ∈ table, r.name = name then Except.error ()
  else Except.ok (table ++ [⟨name, description, interval, now, chat_id⟩])

/-- The retry loop of `try_connect_bot` (src/main.rs lines 736-759), with
the identity probe of attempt `i` abstracted as `probe i`.  The extra fuel
argument equals `retries - attempt` and only bounds the recursion; for
`retries ≥ 1` it never runs out, because the loop recurses only while
`attempt + 1 < retries`.  Returns the connection result (the index of the
successful probe, or a connection error) together with the list of sleep
durations performed between consecutive attempts. -/
def try_connect_go (probe : Nat → Bool) (retries delay : Nat) :
    Nat → Nat → Except Unit Nat × List Nat
  | _, 0 => (Except.error (), [])
  | attempt, fuel + 1 =>
    if probe attempt then (Except.ok attempt, [])
    else if retries ≤ attempt + 1 then (Except.error (), [])
    else
      let r := try_connect_go probe retries delay (attempt + 1) fuel
      (r.1, delay :: r.2)

/-- Model of `try_connect_bot` (src/main.rs lines 736-759): start at attempt 0. -/
def try_connect_bot (probe : Nat → Bool) (retries delay : Nat) :
    Except Unit Nat × List Nat :=
  try_connect_go probe retries delay 0 retries

/-- The fixed supervisor delay `retry_delay` of `run_with_retry`
(src/main.rs line 772), in seconds. -/
def retry_delay : Nat := 5

/-- The connector retry bound `max_retries` of `run_with_retry`
(src/main.rs line 773). -/
def max_retries : Nat := 5

/-- The result of `run_bot` (src/main.rs lines 761-769): `Command::repl`
returns `()`, after which `run_bot` always returns `Ok(())`. -/
def run_bot_result : Except Unit Unit := Except.ok ()

/-- Outcome of one iteration of the supervisor loop in `run_with_retry`
(src/main.rs lines 775-803): the connector exhausted its retries, or the
serving loop returned `Ok` after a successful connection, or it returned
`Err` after a successful connection. -/
inductive CycleOutcome
  | connectFail
  | serveOk
  | serveErr
deriving DecidableEq

/-- The supervisor loop of `run_with_retry` (src/main.rs lines 771-804) run
against a finite trace of iteration outcomes.  Returns whether the loop
terminated within the trace (`break` on a graceful `Ok` from `run_bot`,
line 782) and the list of sleep durations performed (one fixed
`retry_delay` before each restart, lines 790 and 800). -/
def run_with_retry : List CycleOutcome → Bool × List Nat
  | [] => (false, [])
  | CycleOutcome.serveOk :: _ => (true, [])
  | CycleOutcome.serveErr :: rest =>
    let r := run_with_retry rest
    (r.1, retry_delay :: r.2)
  | CycleOutcome.connectFail :: rest =>
    let r := run_with_retry rest
    (r.1, retry_delay :: r.2)

/-! Helper lemmas about the tokenizer. -/

theorem escapeNF_nil : escape_non_formatting_chars [] = [] := rfl

theorem pmf_go_nil (inf : Option Fmt) (buf : List Char) (run : Option (Char × Bool)) :
    pmf_go inf buf run [] = escape_non_formatting_chars buf := rfl

theorem pmf_go_nondelim (inf : Option Fmt) (buf : List Char) (run : Option (Char × Bool))
    (c : Char) (rest : List Char) (hc : isFormatChar c = false) :
    pmf_go inf buf run (c :: rest) = pmf_go inf (buf ++ [c]) none rest := by
  cases run with
  | none => simp [pmf_go, hc]
  | some p => simp [pmf_go, hc]

theorem pmf_go_delim_none (inf : Option Fmt) (buf : List Char) (c : Char)
    (rest : List Char) (hc : isFormatChar c = true) :
    pmf_go inf buf none (c :: rest) =
      escape_non_formatting_chars buf ++ (run_decision inf c).1 ++
        pmf_go (run_decision inf c).2.1 [] (some (c, (run_decision inf c).2.2)) rest := by
  simp [pmf_go, hc]

theorem pmf_go_delim_run_eq (inf : Option Fmt) (buf : List Char) (c : Char) (esc : Bool)
    (rest : List Char) (hc : isFormatChar c = true) :
    pmf_go inf buf (some (c, esc)) (c :: rest) =
      (if esc then ['\\', c] else [c]) ++ pmf_go inf [] (some (c, esc)) rest := by
  simp [pmf_go, hc]

theorem pmf_terminal : ∀ (t : List Char), (∀ c ∈ t, isFormatChar c = false) →
    ∀ inf buf run, pmf_go inf buf run t = escape_non_formatting_chars (buf ++ t) := by
  intro t
  induction t with
  | nil => intro _ inf buf run; simp [pmf_go_nil]
  | cons c t ih =>
    intro ht inf buf run
    have hc : isFormatChar c = false := ht c (List.mem_cons_self c t)
    rw [pmf_go_nondelim inf buf run c t hc,
      ih (fun x hx => ht x (List.mem_cons_of_mem c hx)) inf (buf ++ [c]) none]
    simp

theorem pmf_plain : ∀ (t : List Char), (∀ c ∈ t, isFormatChar c = false) →
    ∀ inf buf s, pmf_go inf buf none (t ++ s) = pmf_go inf (buf ++ t) none s := by
  intro t
  induction t with
  | nil => intro _ inf buf s; simp
  | cons c t ih =>
    intro ht inf buf s
    have hc : isFormatChar c = false := ht c (List.mem_cons_self c t)
    rw [List.cons_append, pmf_go_nondelim inf buf none c (t ++ s) hc,
      ih (fun x hx => ht x (List.mem_cons_of_mem c hx)) inf (buf ++ [c]) s]
    simp

theorem count_escapeNF (d : Char) (hd : isFormatChar d = true) :
    ∀ (t : List Char), (∀ c ∈ t, isFormatChar c = false) →
    ∀ s, countUnescapedP (fun x => x == d) false (escape_non_formatting_chars t ++ s) =
      countUnescapedP (fun x => x == d) false s := by
  intro t
  induction t with
  | nil => intro _ s; rw [escapeNF_nil, List.nil_append]
  | cons c t ih =>
    intro ht s
    have hc : isFormatChar c = false := ht c (List.mem_cons_self c t)
    have ih' := ih (fun x hx => ht x (List.mem_cons_of_mem c hx))
    have hne : (c == d) = false := by
      simp only [beq_eq_false_iff_ne, ne_eq]
      intro h
      rw [h, hd] at hc
      cases hc
    by_cases hmem : c ∈ restricted_special_chars
    · simp only [escape_non_formatting_chars, if_pos hmem, List.cons_append,
        List.nil_append, countUnescapedP, if_pos rfl]
      by_cases hcb : c = '\\'
      · rw [if_pos hcb]
        simpa using ih' s
      · rw [if_neg hcb]
        simpa using ih' s
    · have hcb : ¬ c = '\\' := by
        intro h
        exact hmem (h ▸ (by decide))
      simp only [escape_non_formatting_chars, if_neg hmem, List.cons_append,
        List.nil_append, countUnescapedP, if_neg hcb, hne]
      simpa using ih' s

theorem format_ne_backslash (d : Char) (hd : isFormatChar d = true) : ¬ d = '\\' := by
  intro h
  rw [h] at hd
  exact absurd hd (by decide)

/-! Claim C1: tokenizer treatment of a single unmatched delimiter. -/

/-- C1 counterexample: on input `*lonely` the tokenizer opens an emphasis
span and emits the asterisk unescaped, so the output equals the input and
contains one unescaped occurrence of the delimiter - the claim that every
occurrence of the delimiter character in the output is escaped is false. -/
theorem tokenizer_unmatched_counterexample :
    process_markdown_formatting ("*lonely".toList) = "*lonely".toList ∧
    countUnescapedP (fun x => x == '*') false
      (process_markdown_formatting ("*lonely".toList)) = 1 := by
  constructor
  · rfl
  · decide

/-- C1 amended: for an input consisting of a single leading emphasis
delimiter followed by delimiter-free text, the tokenizer emits the delimiter
unescaped (it opens an emphasis span that is never closed) and escapes only
the remaining text through the restricted-set escaper, so the output
contains exactly one unescaped occurrence of the delimiter. -/
theorem tokenizer_unmatched_open (d : Char) (t : List Char)
    (hd : isFormatChar d = true) (ht : ∀ c ∈ t, isFormatChar c = false) :
    process_markdown_formatting (d :: t) = d :: escape_non_formatting_chars t ∧
    countUnescapedP (fun x => x == d) false (process_markdown_formatting (d :: t)) = 1 := by
  have heq : process_markdown_formatting (d :: t) = d :: escape_non_formatting_chars t := by
    show pmf_go none [] none (d :: t) = _
    rw [pmf_go_delim_none none [] d t hd]
    simp only [run_decision]
    rw [pmf_terminal t ht _ [] _]
    simp [escapeNF_nil]
  refine ⟨heq, ?_⟩
  rw [heq]
  have hdb := format_ne_backslash d hd
  simp only [countUnescapedP, if_neg hdb]
  have := count_escapeNF d hd t ht []
  rw [List.append_nil] at this
  rw [this]
  simp [countUnescapedP]

/-- Witness for C1 amended at the concrete input `*lonely`. -/
theorem tokenizer_unmatched_open_witness :
    process_markdown_formatting ('*' :: "lonely".toList) =
      '*' :: escape_non_formatting_chars ("lonely".toList) ∧
    countUnescapedP (fun x => x == '*') false
      (process_markdown_formatting ('*' :: "lonely".toList)) = 1 :=
  tokenizer_unmatched_open '*' ("lonely".toList) (by decide) (by decide)

/-! Claim C7: tokenizer treatment of a balanced pair of delimiters. -/

/-- C7: for a balanced pair of identical delimiters around delimiter-free
text, the tokenizer emits both delimiters unescaped (opening then closing
the span), routes the enclosed text through the restricted-set escaper, and
the output contains exactly two unescaped occurrences of the delimiter. -/
theorem tokenizer_balanced_pair (d : Char) (t : List Char)
    (hd : isFormatChar d = true) (ht : ∀ c ∈ t, isFormatChar c = false) :
    process_markdown_formatting (d :: (t ++ [d])) =
      d :: (escape_non_formatting_chars t ++ [d]) ∧
    countUnescapedP (fun x => x == d) false
      (process_markdown_formatting (d :: (t ++ [d]))) = 2 := by
  have heq : process_markdown_formatting (d :: (t ++ [d])) =
      d :: (escape_non_formatting_chars t ++ [d]) := by
    show pmf_go none [] none (d :: (t ++ [d])) = _
    rw [pmf_go_delim_none none [] d (t ++ [d]) hd]
    simp only [run_decision]
    match t, ht with
    | [], _ =>
      rw [List.nil_append, pmf_go_delim_run_eq _ [] d false [] hd]
      simp [pmf_go_nil, escapeNF_nil]
    | c :: t, ht =>
      have hc : isFormatChar c = false := ht c (List.mem_cons_self c t)
      have ht' : ∀ x ∈ t, isFormatChar x = false :=
        fun x hx => ht x (List.mem_cons_of_mem c hx)
      rw [List.cons_append, pmf_go_nondelim _ [] _ c (t ++ [d]) hc,
        pmf_plain t ht' _ ([] ++ [c]) [d],
        pmf_go_delim_none _ (([] ++ [c]) ++ t) d [] hd]
      simp [run_decision, pmf_go_nil, escapeNF_nil]
  refine ⟨heq, ?_⟩
  rw [heq]
  have hdb := format_ne_backslash d hd
  simp only [countUnescapedP, if_neg hdb]
  rw [count_escapeNF d hd t ht [d]]
  simp [countUnescapedP, if_neg hdb]

/-- Witness for C7 at the concrete input `*bold*`. -/
theorem tokenizer_balanced_pair_witness :
    process_markdown_formatting ('*' :: ("bold".toList ++ ['*'])) =
      '*' :: (escape_non_formatting_chars ("bold".toList) ++ ['*']) ∧
    countUnescapedP (fun x => x == '*') false
      (process_markdown_formatting ('*' :: ("bold".toList ++ ['*']))) = 2 :=
  tokenizer_balanced_pair '*' ("bold".toList) (by decide) (by decide)

/-! Claim C8: full-set escaper roundtrip. -/

theorem count_full_escape : ∀ s : List Char,
    countUnescapedP (fun c => decide (c ∈ full_special_chars)) false
      (escape_markdown_v2 s) = 0 := by
  intro s
  induction s with
  | nil => rfl
  | cons c s ih =>
    by_cases hmem : c ∈ full_special_chars
    · simp only [escape_markdown_v2, if_pos hmem, List.cons_append, List.nil_append,
        countUnescapedP, if_pos rfl]
      by_cases hcb : c = '\\'
      · rw [if_pos hcb]
        simpa using ih
      · rw [if_neg hcb]
        simpa using ih
    · have hcb : ¬ c = '\\' := by
        intro h
        exact hmem (h ▸ (by decide))
      simp only [escape_markdown_v2, if_neg hmem, List.cons_append, List.nil_append,
        countUnescapedP, if_neg hcb, hmem]
      simpa [hmem] using ih

theorem removeEscapes_cons_ne (c : Char) (rest : List Char) (hcb : ¬ c = '\\') :
    removeEscapes (c :: rest) = c :: removeEscapes rest := by
  cases rest with
  | nil => simp [removeEscapes, hcb]
  | cons c2 rest2 => simp [removeEscapes, hcb]

theorem removeEscapes_escape_v2 : ∀ s : List Char,
    removeEscapes (escape_markdown_v2 s) = s := by
  intro s
  induction s with
  | nil => rfl
  | cons c s ih =>
    by_cases hmem : c ∈ full_special_chars
    · simp [escape_markdown_v2, hmem, removeEscapes, ih]
    · have hcb : ¬ c = '\\' := by
        intro h
        exact hmem (h ▸ (by decide))
      simp only [escape_markdown_v2, if_neg hmem, List.cons_append, List.nil_append]
      rw [removeEscapes_cons_ne c _ hcb, ih]

theorem escape_v2_length : ∀ s : List Char, s.length ≤ (escape_markdown_v2 s).length := by
  intro s
  induction s with
  | nil => simp [escape_markdown_v2]
  | cons c s ih =>
    by_cases hmem : c ∈ full_special_chars
    · simp only [escape_markdown_v2, if_pos hmem, List.length_cons, List.cons_append,
        List.nil_append, List.length_append]
      simp at ih ⊢
      omega
    · simp only [escape_markdown_v2, if_neg hmem, List.length_cons, List.cons_append,
        List.nil_append]
      simpa using ih

/-- C8: for any input (in particular one with no emphasis delimiters), the
full-set escaper's output has no unescaped reserved character, removing the
escape backslashes restores the input exactly, and the output is at least as
long as the input. -/
theorem escaper_no_delim_roundtrip (s : List Char) (_h : ∀ c ∈ s, isFormatChar c = false) :
    countUnescapedP (fun c => decide (c ∈ full_special_chars)) false
      (escape_markdown_v2 s) = 0 ∧
    removeEscapes (escape_markdown_v2 s) = s ∧
    s.length ≤ (escape_markdown_v2 s).length :=
  ⟨count_full_escape s, removeEscapes_escape_v2 s, escape_v2_length s⟩

/-- Witness for C8 at the concrete input `a,b!`. -/
theorem escaper_no_delim_roundtrip_witness :
    countUnescapedP (fun c => decide (c ∈ full_special_chars)) false
      (escape_markdown_v2 ("a,b!".toList)) = 0 ∧
    removeEscapes (escape_markdown_v2 ("a,b!".toList)) = "a,b!".toList ∧
    ("a,b!".toList).length ≤ (escape_markdown_v2 ("a,b!".toList)).length :=
  escaper_no_delim_roundtrip ("a,b!".toList) (by decide)

/-! Claim C10: reflow classification and marker stripping. -/

theorem splitNN_no_nl : ∀ (l : List Char), '\n' ∉ l → splitNN l = [l] := by
  intro l
  induction l with
  | nil => intro _; rfl
  | cons c l ih =>
    intro h
    have hc : ¬ c = '\n' := fun hcc => h (hcc ▸ List.mem_cons_self c l)
    have hl : '\n' ∉ l := fun hm => h (List.mem_cons_of_mem c hm)
    cases l with
    | nil => rfl
    | cons c2 l2 =>
      rw [splitNN]
      rw [if_neg (by intro hand; exact hc hand.1)]
      rw [ih hl]
      rfl

theorem splitNL_no_nl : ∀ (l : List Char), '\n' ∉ l → splitNL l = [l] := by
  intro l
  induction l with
  | nil => intro _; rfl
  | cons c l ih =>
    intro h
    have hc : ¬ c = '\n' := fun hcc => h (hcc ▸ List.mem_cons_self c l)
    have hl : '\n' ∉ l := fun hm => h (List.mem_cons_of_mem c hm)
    rw [splitNL, if_neg hc, ih hl]
    rfl

theorem rustLines_no_nl (l : List Char) (hne : l ≠ []) (h : '\n' ∉ l) :
    rustLines l = [l] := by
  unfold rustLines
  rw [splitNL_no_nl l h]
  simp [hne]

theorem intercalate_single (sep : List Char) (x : List Char) :
    List.intercalate sep [x] = x := by
  simp [List.intercalate]

/-- C10: a single line whose trimmed form starts with a dash or an asterisk
is classified as a list item, all consecutive leading dashes and asterisks
are stripped from its trimmed form, and the output is the bullet glyph
followed by the tokenized remainder. -/
theorem reflow_list_line (l : List Char) (hnl : '\n' ∉ l) (hl : isListLine l = true) :
    format_response_content l =
      '•' :: ' ' :: process_markdown_formatting (list_item_body l) := by
  have hne : l ≠ [] := by
    intro hnil
    rw [hnil] at hl
    exact absurd hl (by decide)
  unfold format_response_content
  rw [splitNN_no_nl l hnl, List.map_cons, List.map_nil, intercalate_single]
  unfold format_paragraph
  rw [rustLines_no_nl l hne hnl]
  simp only [List.any_cons, List.any_nil, hl, Bool.or_false, if_true]
  rw [List.map_cons, List.map_nil, intercalate_single]
  unfold format_line
  rw [if_pos hl]

/-- Witness for C10 at the concrete input `**bold** x`: both leading
asterisks are stripped and the line becomes a bullet whose content starts
with `bold** x`. -/
theorem reflow_list_line_witness :
    format_response_content ("**bold** x".toList) =
      '•' :: ' ' :: process_markdown_formatting (list_item_body ("**bold** x".toList)) ∧
    list_item_body ("**bold** x".toList) = "bold** x".toList ∧
    format_response_content ("**bold** x".toList) = '•' :: ' ' :: "bold** x".toList :=
  ⟨reflow_list_line ("**bold** x".toList) (by decide) (by decide), by decide, by decide⟩

/-! Claims C4, C5, C6: the scheduler cycle. -/

theorem sched_update_eq_some (now : Int) (exec : SchedTask → ExecOutcome) (t : SchedTask)
    (u : String × Int) :
    sched_update now exec t = some u ↔
      (∃ lr, t.last_run = some lr ∧ isDue now lr t.interval = true) ∧
        exec t = ExecOutcome.ok ∧ u = (t.name, now) := by
  cases hlr : t.last_run with
  | none => simp [sched_update, hlr]
  | some lr =>
    by_cases hc : isDue now lr t.interval = true ∧ exec t = ExecOutcome.ok
    · simp only [sched_update, hlr, if_pos hc, Option.some_inj]
      constructor
      · intro h
        exact ⟨⟨lr, rfl, hc.1⟩, hc.2, h.symm⟩
      · rintro ⟨_, _, h⟩
        exact h.symm
    · simp only [sched_update, hlr, if_neg hc]
      constructor
      · intro h
        exact Option.noConfusion h
      · rintro ⟨⟨lr2, hlr2, hdue2⟩, hexec2, _⟩
        rw [Option.some_inj] at hlr2
        subst hlr2
        exact absurd ⟨hdue2, hexec2⟩ hc

theorem check_and_run_tasks_spec (now : Int) (exec : SchedTask → ExecOutcome) :
    ∀ tasks : List SchedTask, (∀ t ∈ tasks, (t.last_run).isSome = true) →
      check_and_run_tasks now exec tasks =
        Except.ok (tasks.filterMap (sched_update now exec)) := by
  intro tasks
  induction tasks with
  | nil => intro _; rfl
  | cons t rest ih =>
    intro h
    have ht : (t.last_run).isSome = true := h t (List.mem_cons_self t rest)
    have hrest := ih (fun x hx => h x (List.mem_cons_of_mem t hx))
    obtain ⟨lr, hlr⟩ := Option.isSome_iff_exists.mp ht
    by_cases hdue : isDue now lr t.interval = true
    · cases hexec : exec t with
      | apiFail =>
        simp [check_and_run_tasks, hlr, hdue, hexec, hrest, sched_update]
      | sendFail =>
        simp [check_and_run_tasks, hlr, hdue, hexec, hrest, sched_update]
      | ok =>
        simp [check_and_run_tasks, hlr, hdue, hexec, hrest, sched_update]
    · simp [check_and_run_tasks, hlr, hdue, hrest, sched_update]

theorem map_nodup_inj {α β : Type} (f : α → β) :
    ∀ (l : List α), (l.map f).Nodup → ∀ a ∈ l, ∀ b ∈ l, f a = f b → a = b := by
  intro l
  induction l with
  | nil => intro _ a ha; exact absurd ha (List.not_mem_nil a)
  | cons x l ih =>
    intro hnd a ha b hb hfab
    rw [List.map_cons, List.nodup_cons] at hnd
    rcases List.mem_cons.mp ha with rfl | ha' <;> rcases List.mem_cons.mp hb with rfl | hb'
    · rfl
    · exact absurd (hfab ▸ List.mem_map_of_mem f hb') hnd.1
    · exact absurd (hfab ▸ List.mem_map_of_mem f ha') hnd.1
    · exact ih hnd.2 a ha' b hb' hfab

/-- C4 counterexample: a task whose stored `last_run` fails to parse makes
the whole cycle return early with an error, so the later task `b` - which on
its own is due and would have its `last_run` advanced - is never processed.
The claim that a per-task failure never aborts the rest of the cycle is
false. -/
theorem scheduler_parse_abort_counterexample :
    check_and_run_tasks 1000 (fun _ => ExecOutcome.ok)
      [⟨"a", "q", 1, none, 1⟩, ⟨"b", "q", 1, some 880, 1⟩] = Except.error () ∧
    check_and_run_tasks 1000 (fun _ => ExecOutcome.ok)
      [⟨"b", "q", 1, some 880, 1⟩] = Except.ok [("b", 1000)] :=
  ⟨rfl, rfl⟩

/-- C4 amended: when every stored `last_run` parses, the cycle always
completes without error - an answer-call or delivery failure of any task is
caught per-task and never aborts the cycle - and every due task whose
answer call and delivery succeed still gets its update, regardless of other
tasks' failures.  A `last_run` parse failure, however, aborts the remainder
of the cycle (the cycle returns an error that the surrounding loop only
logs; the process continues). -/
theorem scheduler_exec_failure_isolated (now : Int) (exec : SchedTask → ExecOutcome)
    (tasks : List SchedTask) (h : ∀ t ∈ tasks, (t.last_run).isSome = true) :
    (check_and_run_tasks now exec tasks).isOk = true ∧
    (∀ t ∈ tasks, ∀ lr, t.last_run = some lr → isDue now lr t.interval = true →
      exec t = ExecOutcome.ok →
      (t.name, now) ∈ tasks.filterMap (sched_update now exec)) := by
  refine ⟨by rw [check_and_run_tasks_spec now exec tasks h]; rfl, ?_⟩
  intro t ht lr hlr hdue hexec
  exact List.mem_filterMap.mpr
    ⟨t, ht, (sched_update_eq_some now exec t (t.name, now)).mpr
      ⟨⟨lr, hlr, hdue⟩, hexec, rfl⟩⟩

/-- Witness for C4 amended: task `a` fails delivery, yet the cycle stays ok
and task `b` still receives its update. -/
theorem scheduler_exec_failure_isolated_witness :
    (check_and_run_tasks 1000
      (fun t => if t.name = "a" then ExecOutcome.sendFail else ExecOutcome.ok)
      [⟨"a", "q", 1, some 700, 1⟩, ⟨"b", "q", 1, some 760, 1⟩]).isOk = true ∧
    ("b", (1000 : Int)) ∈
      ([⟨"a", "q", 1, some 700, 1⟩, ⟨"b", "q", 1, some 760, 1⟩] : List SchedTask).filterMap
        (sched_update 1000
          (fun t => if t.name = "a" then ExecOutcome.sendFail else ExecOutcome.ok)) := by
  have h := scheduler_exec_failure_isolated 1000
    (fun t => if t.name = "a" then ExecOutcome.sendFail else ExecOutcome.ok)
    [⟨"a", "q", 1, some 700, 1⟩, ⟨"b", "q", 1, some 760, 1⟩] (by decide)
  exact ⟨h.1, h.2 ⟨"b", "q", 1, some 760, 1⟩ (by decide) 760 rfl (by decide) (by decide)⟩

/-- C5: when every stored `last_run` parses, a cycle returns exactly one
`last_run` update per task that is due and whose answer call and delivery
both succeed; every update sets `last_run` to the cycle's poll time `now`
(not the originally-due time); a task whose answer call or delivery fails
receives no update, so it stays due for the next cycle. -/
theorem scheduler_last_run_policy (now : Int) (exec : SchedTask → ExecOutcome)
    (tasks : List SchedTask) (h : ∀ t ∈ tasks, (t.last_run).isSome = true) :
    check_and_run_tasks now exec tasks =
      Except.ok (tasks.filterMap (sched_update now exec)) ∧
    (∀ u ∈ tasks.filterMap (sched_update now exec), u.2 = now) ∧
    (∀ t ∈ tasks, ∀ lr, t.last_run = some lr → isDue now lr t.interval = true →
      exec t = ExecOutcome.ok →
      (t.name, now) ∈ tasks.filterMap (sched_update now exec)) ∧
    ((tasks.map SchedTask.name).Nodup →
      ∀ t ∈ tasks, exec t ≠ ExecOutcome.ok →
      ∀ ts, (t.name, ts) ∉ tasks.filterMap (sched_update now exec)) := by
  refine ⟨check_and_run_tasks_spec now exec tasks h, ?_, ?_, ?_⟩
  · intro u hu
    obtain ⟨t, _, hupd⟩ := List.mem_filterMap.mp hu
    obtain ⟨_, _, hu'⟩ := (sched_update_eq_some now exec t u).mp hupd
    rw [hu']
  · intro t ht lr hlr hdue hexec
    exact List.mem_filterMap.mpr
      ⟨t, ht, (sched_update_eq_some now exec t (t.name, now)).mpr
        ⟨⟨lr, hlr, hdue⟩, hexec, rfl⟩⟩
  · intro hnodup t ht hexec ts hmem
    obtain ⟨t2, ht2, hupd⟩ := List.mem_filterMap.mp hmem
    obtain ⟨_, hexec2, hu⟩ := (sched_update_eq_some now exec t2 (t.name, ts)).mp hupd
    have hname : t2.name = t.name := (congrArg Prod.fst hu).symm
    have : t2 = t := map_nodup_inj SchedTask.name tasks hnodup t2 ht2 t ht hname
    rw [this] at hexec2
    exact hexec hexec2

/-- Witness for C5: task `b` is due and succeeds so its `last_run` advances
to the poll time 1000; task `c` is due but its answer call fails, so it gets
no update. -/
theorem scheduler_last_run_policy_witness :
    check_and_run_tasks 1000
      (fun t => if t.name = "c" then ExecOutcome.apiFail else ExecOutcome.ok)
      [⟨"b", "q", 2, some 880, 1⟩, ⟨"c", "q", 1, some 700, 2⟩] =
    Except.ok [("b", 1000)] := by
  have h := (scheduler_last_run_policy 1000
    (fun t => if t.name = "c" then ExecOutcome.apiFail else ExecOutcome.ok)
    [⟨"b", "q", 2, some 880, 1⟩, ⟨"c", "q", 1, some 700, 2⟩] (by decide)).1
  exact h.trans (congrArg Except.ok (by decide))

/-- C6: a task is due exactly when `now - last_run`, truncated to whole
minutes, is at least the interval; in particular a task with interval 1 and
`last_run` two minutes ago is due, and a task with interval 60 and
`last_run` one minute ago is not. -/
theorem scheduler_due_test (now : Int) :
    (∀ lr interval : Int, isDue now lr interval = true ↔
      interval ≤ Int.tdiv (now - lr) 60) ∧
    isDue now (now - 120) 1 = true ∧
    isDue now (now - 60) 60 = false := by
  refine ⟨fun lr i => by simp [isDue, num_minutes], ?_, ?_⟩
  · have h : now - (now - 120) = 120 := by omega
    simp [isDue, num_minutes, h]
    decide
  · have h : now - (now - 60) = 60 := by omega
    simp [isDue, num_minutes, h]

/-- Witness for C6 at `now = 1000` (timestamps in seconds). -/
theorem scheduler_due_test_witness :
    isDue 1000 880 1 = true ∧ isDue 1000 940 60 = false := by
  have h := scheduler_due_test 1000
  have h1 := h.2.1
  have h2 := h.2.2
  norm_num at h1 h2
  exact ⟨h1, h2⟩

/-! Claim C3: task-name uniqueness scope. -/

/-- C3 counterexample: with a task named `a` existing in chat 1, creating a
task named `a` in chat 2 fails, even though no task named `a` exists in
chat 2 - uniqueness is global (the `name` column alone is the PRIMARY KEY),
not scoped per chat, so the claimed "fails only if same chat" iff is false. -/
theorem create_task_cross_chat_counterexample :
    (create_task [⟨"a", "q", 1, "t0", 1⟩] "a" "q2" 1 2 "t1").isOk = false ∧
    ¬ ∃ r ∈ ([⟨"a", "q", 1, "t0", 1⟩] : List TaskRow),
        r.name = "a" ∧ r.chat_id = 2 := by
  exact ⟨by decide, by decide⟩

/-- C3 amended: task creation fails exactly when a task with the same name
already exists in ANY chat (the `name` column alone is the table's PRIMARY
KEY); otherwise the row is inserted. -/
theorem create_task_global_uniqueness (table : List TaskRow) (name description : String)
    (interval chat_id : Int) (now : String) :
    (create_task table name description interval chat_id now = Except.error () ↔
      ∃ r ∈ table, r.name = name) ∧
    ((¬ ∃ r ∈ table, r.name = name) →
      create_task table name description interval chat_id now =
        Except.ok (table ++ [⟨name, description, interval, now, chat_id⟩])) := by
  unfold create_task
  by_cases h : ∃ r ∈ table, r.name = name
  · rw [if_pos h]
    exact ⟨⟨fun _ => h, fun _ => rfl⟩, fun hn => absurd h hn⟩
  · rw [if_neg h]
    refine ⟨⟨fun he => absurd he (by simp), fun hr => absurd hr h⟩, fun _ => rfl⟩

/-- Witness for C3 amended at a concrete table. -/
theorem create_task_global_uniqueness_witness :
    create_task [⟨"a", "q", 1, "t0", 1⟩] "a" "q2" 1 2 "t1" = Except.error () :=
  (create_task_global_uniqueness [⟨"a", "q", 1, "t0", 1⟩] "a" "q2" 1 2 "t1").1.mpr
    (by decide)

/-! Claim C9: the connector retry loop. -/

theorem tcg_succ (probe : Nat → Bool) (r d attempt fuel : Nat) :
    try_connect_go probe r d attempt (fuel + 1) =
      if probe attempt then (Except.ok attempt, [])
      else if r ≤ attempt + 1 then (Except.error (), [])
      else ((try_connect_go probe r d (attempt + 1) fuel).1,
            d :: (try_connect_go probe r d (attempt + 1) fuel).2) := rfl

theorem try_connect_go_spec (probe : Nat → Bool) (r d : Nat) :
    ∀ fuel attempt, attempt + fuel = r → 1 ≤ fuel →
      (((try_connect_go probe r d attempt fuel).1 = Except.error () ↔
          ∀ i, attempt ≤ i → i < r → probe i = false) ∧
        (∀ n, (try_connect_go probe r d attempt fuel).1 = Except.ok n →
          attempt ≤ n ∧ n < r ∧ probe n = true ∧
            ∀ i, attempt ≤ i → i < n → probe i = false) ∧
        (∀ x ∈ (try_connect_go probe r d attempt fuel).2, x = d) ∧
        ((try_connect_go probe r d attempt fuel).1 = Except.error () →
          (try_connect_go probe r d attempt fuel).2.length = fuel - 1) ∧
        (∀ n, (try_connect_go probe r d attempt fuel).1 = Except.ok n →
          (try_connect_go probe r d attempt fuel).2.length = n - attempt)) := by
  intro fuel
  induction fuel with
  | zero => intro attempt _ h1; exact absurd h1 (by omega)
  | succ fuel ih =>
    intro attempt hsum _
    rw [tcg_succ]
    by_cases hp : probe attempt = true
    · rw [if_pos hp]
      refine ⟨?_, ?_, ?_, ?_, ?_⟩
      · constructor
        · intro he
          exact Except.noConfusion he
        · intro hall
          have := hall attempt (Nat.le_refl attempt) (by omega)
          rw [hp] at this
          exact Bool.noConfusion this
      · intro n hn
        have hna : attempt = n := Except.ok.inj hn
        subst hna
        exact ⟨Nat.le_refl attempt, by omega, hp, fun i hi1 hi2 => absurd hi2 (by omega)⟩
      · intro x hx
        exact absurd hx (List.not_mem_nil x)
      · intro he
        exact Except.noConfusion he
      · intro n hn
        have hna : attempt = n := Except.ok.inj hn
        subst hna
        simp
    · rw [if_neg hp]
      have hpf : probe attempt = false := Bool.eq_false_iff.mpr hp
      by_cases hle : r ≤ attempt + 1
      · rw [if_pos hle]
        have hfz : fuel = 0 := by omega
        refine ⟨?_, ?_, ?_, ?_, ?_⟩
        · constructor
          · intro _ i hi1 hi2
            have : i = attempt := by omega
            rw [this, hpf]
          · intro _
            rfl
        · intro n hn
          exact Except.noConfusion hn
        · intro x hx
          exact absurd hx (List.not_mem_nil x)
        · intro _
          simp [hfz]
        · intro n hn
          exact Except.noConfusion hn
      · rw [if_neg hle]
        have hfuel : 1 ≤ fuel := by omega
        have hsum' : attempt + 1 + fuel = r := by omega
        obtain ⟨iha, ihb, ihc, ihd, ihe⟩ := ih (attempt + 1) hsum' hfuel
        refine ⟨?_, ?_, ?_, ?_, ?_⟩
        · constructor
          · intro he i hi1 hi2
            rcases Nat.eq_or_lt_of_le hi1 with heq | hlt
            · rw [← heq, hpf]
            · exact iha.mp he i hlt hi2
          · intro hall
            exact iha.mpr (fun i hi1 hi2 => hall i (by omega) hi2)
        · intro n hn
          obtain ⟨h1, h2, h3, h4⟩ := ihb n hn
          refine ⟨by omega, h2, h3, ?_⟩
          intro i hi1 hi2
          rcases Nat.eq_or_lt_of_le hi1 with heq | hlt
          · rw [← heq, hpf]
          · exact h4 i hlt hi2
        · intro x hx
          rcases List.mem_cons.mp hx with rfl | hx'
          · rfl
          · exact ihc x hx'
        · intro he
          have := ihd he
          simp only [List.length_cons, this]
          omega
        · intro n hn
          have hlen := ihe n hn
          have hle2 := (ihb n hn).1
          simp only [List.length_cons, hlen]
          omega

/-- C9: for any probe oracle, retry bound `r ≥ 1` and fixed delay, the
connector returns a connection error exactly when all of the first `r`
probe attempts fail - having slept the same fixed delay `r - 1` times
between consecutive attempts - and returns the connected bot on the first
successful probe (having slept once per preceding failure, always the same
fixed delay, never an exponential one). -/
theorem connector_retry_policy (probe : Nat → Bool) (r d : Nat) (hr : 1 ≤ r) :
    ((try_connect_bot probe r d).1 = Except.error () ↔
      ∀ i, i < r → probe i = false) ∧
    (∀ n, (try_connect_bot probe r d).1 = Except.ok n →
      probe n = true ∧ n < r ∧ ∀ i, i < n → probe i = false) ∧
    (∀ x ∈ (try_connect_bot probe r d).2, x = d) ∧
    ((try_connect_bot probe r d).1 = Except.error () →
      (try_connect_bot probe r d).2.length = r - 1) ∧
    (∀ n, (try_connect_bot probe r d).1 = Except.ok n →
      (try_connect_bot probe r d).2.length = n) := by
  obtain ⟨ha, hb, hc, hd, he⟩ := try_connect_go_spec probe r d r 0 (by omega) hr
  unfold try_connect_bot
  refine ⟨?_, ?_, hc, hd, ?_⟩
  · constructor
    · intro hhe i hi
      exact ha.mp hhe i (Nat.zero_le i) hi
    · intro hall
      exact ha.mpr (fun i _ hi => hall i hi)
  · intro n hn
    obtain ⟨_, h2, h3, h4⟩ := hb n hn
    exact ⟨h3, h2, fun i hi => h4 i (Nat.zero_le i) hi⟩
  · intro n hn
    have := he n hn
    simpa using this

/-- Witness for C9: with a probe that always fails, 2 retries and delay 7,
the connector errors out after one fixed-delay sleep. -/
theorem connector_retry_policy_witness :
    (try_connect_bot (fun _ => false) 2 7).1 = Except.error () ∧
    (try_connect_bot (fun _ => false) 2 7).2 = [7] := by
  have h := connector_retry_policy (fun _ => false) 2 7 (by omega)
  exact ⟨h.1.mpr (fun i _ => rfl), by decide⟩

/-! Claim C2: the supervisor loop. -/

/-- C2 counterexample: a supervisor iteration in which the serving loop
returns `Ok` after a successful connection makes `run_with_retry` break out
of its loop - the supervisor terminates on its own, refuting the claim that
it restarts indefinitely in all cases. -/
theorem supervisor_graceful_break_counterexample :
    (run_with_retry [CycleOutcome.serveOk]).1 = true := by decide

/-- C2 amended: the supervisor restarts indefinitely - always sleeping the
same fixed delay - after a connector that exhausts its retries or a serving
loop that returns an error, but it terminates (breaks) as soon as a serving
cycle after a successful connection returns `Ok`; and `run_bot` as written
always returns `Ok`, so every completed serving cycle is such a graceful
one. -/
theorem supervisor_restart_policy (trace : List CycleOutcome) :
    ((run_with_retry trace).1 = true ↔ CycleOutcome.serveOk ∈ trace) ∧
    (∀ x ∈ (run_with_retry trace).2, x = retry_delay) ∧
    run_bot_result = Except.ok () := by
  induction trace with
  | nil =>
    refine ⟨by simp [run_with_retry], ?_, rfl⟩
    intro x hx
    exact absurd hx (List.not_mem_nil x)
  | cons o rest ih =>
    cases o with
    | serveOk =>
      refine ⟨by simp [run_with_retry], ?_, rfl⟩
      intro x hx
      exact absurd hx (List.not_mem_nil x)
    | serveErr =>
      refine ⟨?_, ?_, rfl⟩
      · rw [show (run_with_retry (CycleOutcome.serveErr :: rest)).1 =
          (run_with_retry rest).1 from rfl]
        rw [ih.1]
        simp
      · intro x hx
        rcases List.mem_cons.mp hx with rfl | hx'
        · rfl
        · exact ih.2.1 x hx'
    | connectFail =>
      refine ⟨?_, ?_, rfl⟩
      · rw [show (run_with_retry (CycleOutcome.connectFail :: rest)).1 =
          (run_with_retry rest).1 from rfl]
        rw [ih.1]
        simp
      · intro x hx
        rcases List.mem_cons.mp hx with rfl | hx'
        · rfl
        · exact ih.2.1 x hx'

/-- Witness for C2 amended: a connect failure is retried after the fixed
delay, and the loop then terminates on the graceful serving cycle. -/
theorem supervisor_restart_policy_witness :
    (run_with_retry [CycleOutcome.connectFail, CycleOutcome.serveOk]).1 = true ∧
    (run_with_retry [CycleOutcome.connectFail, CycleOutcome.serveOk]).2 = [retry_delay] := by
  have h := supervisor_restart_policy [CycleOutcome.connectFail, CycleOutcome.serveOk]
  exact ⟨h.1.mpr (by decide), by decide⟩

end Wibot
